import Mathlib

/-!
Shallow embedding of `src/vamodels.py` (Itti–Koch–Niebur saliency model).

Modelling conventions:

* A numpy 2-D float array is an `Image`: an explicit shape `(r, c)` together
  with a total pixel function whose values outside the shape are 0.  Samples
  are exact rationals `ℚ` standing for the floating-point values of the code.
* Pure numpy expressions become pure Lean functions; Python exceptions
  (IndexError from list indexing) and float poisoning (NaN/inf produced by a
  division by an exactly-zero maximum) are modelled with `Option`: `none`
  means "the call raised or the resulting array is NaN/inf-poisoned".
* The external kernels that the code builds with transcendental functions
  (`cv2.getGaborKernel`, and the DoG kernel built from `exp` and `pi` inside
  `difference_of_gaussians_filtering_and_update`) cannot be represented with
  exact rationals; they are passed to the embedded functions as explicit
  kernel arguments (`hGabor`, and the shape-indexed family `hFam`).  Every
  claim below is either independent of the kernel values or quantifies over
  them.  All remaining arithmetic of the source is embedded exactly.
* External library primitives used by the code (`cv2.pyrDown`, `cv2.resize`
  with `interpolation = 1`, `scipy.signal.convolve2d` with `mode = 'same'`
  and `boundary = 'wrap'`) are modelled from their documented behaviour,
  with exact rational arithmetic in place of floats.
-/

/-- An in-memory single-channel image: `r` rows, `c` columns, and the sample
`px i j` at row `i`, column `j`.  Entries outside the shape are 0 for every
image built by the embedded operations. -/
structure Image where
  r : Nat
  c : Nat
  px : Nat → Nat → ℚ

/-- Canonical image constructor: samples outside the declared shape are 0. -/
def Image.mk2 (r c : Nat) (f : Nat → Nat → ℚ) : Image :=
  ⟨r, c, fun i j => if i < r ∧ j < c then f i j else 0⟩

/-- `np.zeros((r, c))`. -/
def zerosImg (r c : Nat) : Image := Image.mk2 r c fun _ _ => 0

/-- Default image used by list lookups with `List.getD`. -/
def dfltImg : Image := zerosImg 0 0

/-- An image is canonical when all samples outside its shape are 0. -/
def Canonical (m : Image) : Prop :=
  ∀ i j, ¬(i < m.r ∧ j < m.c) → m.px i j = 0

/-- numpy elementwise `a + b` (all uses in the source have equal shapes; the
shape of the left operand is kept). -/
def Image.add (a b : Image) : Image :=
  Image.mk2 a.r a.c fun i j => a.px i j + b.px i j

/-- numpy elementwise `a - b`. -/
def Image.sub (a b : Image) : Image :=
  Image.mk2 a.r a.c fun i j => a.px i j - b.px i j

/-- numpy `np.abs(a)`. -/
def Image.absIm (a : Image) : Image :=
  Image.mk2 a.r a.c fun i j => |a.px i j|

/-- numpy `a / q` for a scalar `q`. -/
def Image.divC (a : Image) (q : ℚ) : Image :=
  Image.mk2 a.r a.c fun i j => a.px i j / q

/-- The list of in-shape samples (row-major), as numpy would enumerate them. -/
def Image.entries (m : Image) : List ℚ :=
  (List.range m.r).flatMap fun i => (List.range m.c).map fun j => m.px i j

/-- numpy `m.max()` (0 on an empty array; the source never takes the maximum
of an empty array). -/
def Image.maxVal (m : Image) : ℚ :=
  match m.entries with
  | [] => 0
  | x :: xs => xs.foldl max x

/-- numpy `(m > 0).max() == 1`: is any in-shape sample strictly positive? -/
def Image.anyPos (m : Image) : Bool :=
  m.entries.any fun q => decide (0 < q)

/-- Index wrapping for the periodic (`boundary = 'wrap'`) convolutions. -/
def wrapIdx (n : Nat) (t : Int) : Nat :=
  if n = 0 then 0 else (t % (n : Int)).toNat

/-- Clamp an integer coordinate into `[0, n-1]` (bilinear resize sampling). -/
def clampIdx (n : Nat) (t : Int) : Nat :=
  if t < 0 then 0 else min t.toNat (n - 1)

/-- OpenCV `BORDER_REFLECT_101` coordinate reflection (`borderInterpolate`
returns 0 for length-1 axes). -/
def reflectIdx (n : Nat) (t : Int) : Nat :=
  if n ≤ 1 then 0 else
    let p : Int := 2 * (n : Int) - 2
    let u := t % p
    if u < (n : Int) then u.toNat else (p - u).toNat

/-- Sum of a list of rationals. -/
def qsum (l : List ℚ) : ℚ := l.foldl (· + ·) 0

/-- `scipy.signal.convolve2d(im, h, mode = 'same', boundary = 'wrap')`:
the centered same-size part of the full 2-D convolution of the periodically
extended image with the kernel `h`. -/
def convolve2d_wrap (im h : Image) : Image :=
  Image.mk2 im.r im.c fun i j =>
    qsum ((List.range h.r).flatMap fun u => (List.range h.c).map fun v =>
      h.px u v *
        im.px (wrapIdx im.r ((i : Int) + (((h.r - 1) / 2 : Nat) : Int) - (u : Int)))
              (wrapIdx im.c ((j : Int) + (((h.c - 1) / 2 : Nat) : Int) - (v : Int))))

/-- `cv2.resize(im, dsize = (cols, rows), interpolation = 1)`: bilinear
(INTER_LINEAR) resampling, modelled from OpenCV's documented source-coordinate
mapping `src = (dst + 1/2) * scale - 1/2` with edge clamping, in exact
rational arithmetic. -/
def cvResize (im : Image) (rows cols : Nat) : Image :=
  Image.mk2 rows cols fun i j =>
    let fy : ℚ := ((i : ℚ) + 1/2) * ((im.r : ℚ) / (rows : ℚ)) - 1/2
    let fx : ℚ := ((j : ℚ) + 1/2) * ((im.c : ℚ) / (cols : ℚ)) - 1/2
    let y0 : Int := ⌊fy⌋
    let x0 : Int := ⌊fx⌋
    let wy : ℚ := fy - (y0 : ℚ)
    let wx : ℚ := fx - (x0 : ℚ)
    let ya := clampIdx im.r y0
    let yb := clampIdx im.r (y0 + 1)
    let xa := clampIdx im.c x0
    let xb := clampIdx im.c (x0 + 1)
    (1 - wy) * ((1 - wx) * im.px ya xa + wx * im.px ya xb) +
      wy * ((1 - wx) * im.px yb xa + wx * im.px yb xb)

/-- The row weights `[1, 4, 6, 4, 1]` of the fixed binomial kernel. -/
def binom5 (k : Nat) : ℚ := [1, 4, 6, 4, 1].getD k 0

/-- The fixed normalised 5×5 Gaussian kernel `hGauss` of
`orientation_pyramid` (the literal matrix divided by its sum 256). -/
def hGauss : Image := Image.mk2 5 5 fun u v => binom5 u * binom5 v / 256

/-- `cv2.pyrDown(im)`: blur with the 5×5 binomial kernel (outer product of
`[1 4 6 4 1]/16`, so total weight 256) under `BORDER_REFLECT_101`, then keep
the even rows and columns; the output shape is `((r+1)/2, (c+1)/2)` with
truncating division (OpenCV's default `dstsize`). -/
def pyrDown (im : Image) : Image :=
  Image.mk2 ((im.r + 1) / 2) ((im.c + 1) / 2) fun i j =>
    qsum ((List.range 5).flatMap fun u => (List.range 5).map fun v =>
      binom5 u * binom5 v / 256 *
        im.px (reflectIdx im.r (2 * (i : Int) + (u : Int) - 2))
              (reflectIdx im.c (2 * (j : Int) + (v : Int) - 2)))

/-- `image_gaussian_pyramid` (the inner worker of `gaussian_pyramid`):
`n` successive `cv2.pyrDown` steps, each appended to the pyramid; the input
image itself is never appended. -/
def image_gaussian_pyramid (im : Image) : Nat → List Image
  | 0 => []
  | n + 1 => pyrDown im :: image_gaussian_pyramid (pyrDown im) n

/-- `gaussian_pyramid(im, n)` in its single-image calling mode (the list
mode of the source applies this map elementwise, see
`gaussian_pyramid_batch`). -/
def gaussian_pyramid (im : Image) (n : Nat) : List Image :=
  image_gaussian_pyramid im n

/-- The batch calling mode of `gaussian_pyramid` (argument is a list). -/
def gaussian_pyramid_batch (ims : List Image) (n : Nat) : List (List Image) :=
  ims.map fun im => image_gaussian_pyramid im n

/-- `k` applications of `cv2.pyrDown`. -/
def pyrDownIter : Nat → Image → Image
  | 0, im => im
  | k + 1, im => pyrDownIter k (pyrDown im)

/-- One stage of the first loop of `orientation_pyramid`: blur `imTemp` with
`hGauss` (periodic boundary), and bilinearly resize the blurred image to
`((r+1)/2, (c+1)/2)` (Python-2 truncating division of the source).  Returns
the pair (blurred non-downsampled `imf` entry, downsampled `imd` entry). -/
def opStep (im : Image) : Image × Image :=
  let f := convolve2d_wrap im hGauss
  (f, cvResize f ((f.r + 1) / 2) ((f.c + 1) / 2))

/-- The first loop of `orientation_pyramid`: `k` successive `opStep` stages,
each starting from the downsampled image of the previous stage. -/
def opSteps (im : Image) : Nat → List (Image × Image)
  | 0 => []
  | k + 1 => opStep im :: opSteps (opStep im).2 k

/-- Default pair for lookups into the `opSteps` list. -/
def dfltPair : Image × Image := (dfltImg, dfltImg)

/-- `orientation_pyramid(im, degrees, L, ...)`: `L+1` blur/downsample stages,
then for `i = 0..L-1` the band-pass residual `imd[i] - imf[i+1]` convolved
with the oriented Gabor kernel.  The Gabor kernel (built by the external
`cv2.getGaborKernel` from transcendental floats) is the explicit argument
`hGabor`. -/
def orientation_pyramid (hGabor : Image) (im : Image) (L : Nat) : List Image :=
  let st := opSteps im (L + 1)
  (List.range L).map fun i =>
    convolve2d_wrap
      (Image.sub (st.getD i dfltPair).2 (st.getD (i + 1) dfltPair).1) hGabor

/-- Python list indexing `p[k]`: a negative index counts from the end once;
an index still out of range raises `IndexError`, modelled as `none`. -/
def pyGet (p : List Image) (k : Int) : Option Image :=
  let k2 : Int := if k < 0 then k + (p.length : Int) else k
  if k2 < 0 then none else p.get? k2.toNat

/-- One step of the inner loop of the centre-surround builders: append the
map produced by `g j` to the accumulated output list (a raised `IndexError`
inside `g` aborts the whole computation). -/
def csStep (g : Nat → Option Image) (out : List Image) (j : Nat) :
    Option (List Image) :=
  (g j).bind fun m => some (out ++ [m])

/-- The double loop shared by both centre-surround builders: for `i` in
`center` (outer) and `j` in `delta` (inner), append `body i j` to the output
list. -/
def nestedCS (body : Nat → Nat → Option Image) (center delta : List Nat) :
    Option (List Image) :=
  center.foldlM (fun out i => delta.foldlM (csStep (body i)) out) []

/-- The loop body of `centre_surround_feature_map`:
`|pyrmd[i-1] - resize(pyrmd[j+i-1], shape of pyrmd[i-1])|`. -/
def csBody (pyrmd : List Image) (i j : Nat) : Option Image := do
  let s ← pyGet pyrmd ((j : Int) + (i : Int) - 1)
  let cimg ← pyGet pyrmd ((i : Int) - 1)
  pure (Image.absIm (Image.sub cimg (cvResize s cimg.r cimg.c)))

/-- `centre_surround_feature_map(pyrmd, center, delta)`. -/
def centre_surround_feature_map (pyrmd : List Image) (center delta : List Nat) :
    Option (List Image) :=
  nestedCS (csBody pyrmd) center delta

/-- The loop body of `centre_surround_colour_feature_map`:
`temp1 = resize(Ap[j+i-1], shape of Ap[i-1])`,
`temp2 = resize(Bp[j+i-1], shape of Bp[i-1])`,
result `|(Ap[i-1] - Bp[i-1]) - (temp2 - temp1)|`. -/
def ccsBody (Ap Bp : List Image) (i j : Nat) : Option Image := do
  let sa ← pyGet Ap ((j : Int) + (i : Int) - 1)
  let ca ← pyGet Ap ((i : Int) - 1)
  let sb ← pyGet Bp ((j : Int) + (i : Int) - 1)
  let cb ← pyGet Bp ((i : Int) - 1)
  let temp1 := cvResize sa ca.r ca.c
  let temp2 := cvResize sb cb.r cb.c
  pure (Image.absIm (Image.sub (Image.sub ca cb) (Image.sub temp2 temp1)))

/-- `centre_surround_colour_feature_map(Ap, Bp, center, delta)`. -/
def centre_surround_colour_feature_map (Ap Bp : List Image)
    (center delta : List Nat) : Option (List Image) :=
  nestedCS (ccsBody Ap Bp) center delta

/-- One shunting-inhibition update of the DoG iteration:
`filtim + map1 - cte`, where `map1` is the DoG filtering of `filtim`. -/
def dogUpdate (h : Image) (cte : ℚ) (filtim : Image) : Image :=
  Image.mk2 filtim.r filtim.c fun i j =>
    filtim.px i j + (convolve2d_wrap filtim h).px i j - cte

/-- `mask * filtim`: zero out the non-positive entries of the update. -/
def dogMask (upd : Image) : Image :=
  Image.mk2 upd.r upd.c fun i j => if 0 < upd.px i j then upd.px i j else 0

/-- The iteration loop of `difference_of_gaussians_filtering_and_update`:
each round computes `dogUpdate` (convolve with the DoG kernel `h`, add the
result, subtract `cte`) and tests the positivity mask.  If no entry is
positive the loop breaks immediately — the source stores 0 into the dead
variable `filtmin` (not into `filtim`), so the unmasked, non-positive update
is what is returned.  Otherwise negative entries are zeroed and the map is
rescaled by its maximum before the next round. -/
def dogIter (h : Image) (cte : ℚ) : Nat → Image → Image
  | 0, filtim => filtim
  | n + 1, filtim =>
      if (dogUpdate h cte filtim).anyPos then
        dogIter h cte n
          ((dogMask (dogUpdate h cte filtim)).divC
            (dogMask (dogUpdate h cte filtim)).maxVal)
      else dogUpdate h cte filtim

/-- `difference_of_gaussians_filtering_and_update(im, ..., cte, loop, 'wrap')`.
The DoG kernel (built in the source from `exp`, `pi` and the shape of `im`)
is supplied as the shape-indexed family `hFam`.  The first statement of the
loop body divides `im` by `im.max()`; when that maximum is exactly 0 the
float division yields NaN/inf (there is no guard in the code), modelled as
`none`. -/
def difference_of_gaussians_filtering_and_update (hFam : Nat → Nat → Image)
    (cte : ℚ) (loop : Nat) (im : Image) : Option Image :=
  if im.maxVal = 0 then none
  else some (dogIter (hFam im.r im.c) cte loop (im.divC im.maxVal))

/-- The loop body of `conspicuity_map`: resize the entry `ci` to the target
shape `(lr, lc)` unless it already has that shape, normalise it with the
DoG operator, and add it to the accumulator `out`. -/
def cmStep (hFam : Nat → Nat → Image) (loops lr lc : Nat)
    (out ci : Image) : Option Image :=
  let temp := if (ci.r, ci.c) ≠ (lr, lc) then cvResize ci lr lc else ci
  (difference_of_gaussians_filtering_and_update hFam (1/50) loops temp).map
    fun d => Image.add out d

/-- `conspicuity_map(C, loops)`: resize each entry to the shape of the last
entry (skipping entries already of that shape), accumulate the DoG-normalised
entries into `out` (initially zeros), and normalise the sum once more.
`C[len(C)-1]` on an empty list raises, modelled as `none`; the constant
`cte = 0.02` of the source is the exact rational `1/50`. -/
def conspicuity_map (hFam : Nat → Nat → Image) (C : List Image) (loops : Nat) :
    Option Image :=
  (C.getLast?).bind fun lastIm =>
    (C.foldlM (cmStep hFam loops lastIm.r lastIm.c)
      (zerosImg lastIm.r lastIm.c)).bind
    fun out =>
      difference_of_gaussians_filtering_and_update hFam (1/50) loops out

/-- A 3-channel image: `px i j ch` with `ch = 0, 1, 2` the R, G, B planes of
`img[:, :, ch]`. -/
structure Rgb where
  r : Nat
  c : Nat
  px : Nat → Nat → Nat → ℚ

/-- The pyramid depth computed at the top of `smikn`:
`pyramid_levels = centre[-1] + delta[-1]` (the last element of each tuple,
not the maximum). -/
def smiknPyramidLevels (centre delta : List Nat) : Nat :=
  centre.getLastD 0 + delta.getLastD 0

/-- `smikn(img, lps, centre, delta)`: the full Itti–Koch–Niebur pipeline.
`hFam` is the shape-indexed DoG kernel family and `hGb d` the Gabor kernel
for orientation `d` degrees (both built by the source from transcendental
floats).  Diagnostic printing is ignored.  The rgb normalisation divides by
`I + 0.01 * I.max()`; for the pathological all-zero intensity image the code
produces NaN there, while this embedding uses total rational division — no
claim depends on that case. -/
def smikn (hFam : Nat → Nat → Image) (hGb : Nat → Image) (img : Rgb)
    (lps : Nat) (centre delta : List Nat) : Option Image :=
  let pyramid_levels := smiknPyramidLevels centre delta
  let rt := Image.mk2 img.r img.c fun i j => img.px i j 0
  let gt := Image.mk2 img.r img.c fun i j => img.px i j 1
  let bt := Image.mk2 img.r img.c fun i j => img.px i j 2
  let I := Image.mk2 img.r img.c fun i j =>
    (rt.px i j + gt.px i j + bt.px i j) / 3
  let maxI := I.maxVal
  let preConst := maxI / 100
  let rn := Image.mk2 img.r img.c fun i j =>
    if maxI / 10 < I.px i j then rt.px i j / (I.px i j + preConst) else 0
  let gn := Image.mk2 img.r img.c fun i j =>
    if maxI / 10 < I.px i j then gt.px i j / (I.px i j + preConst) else 0
  let bn := Image.mk2 img.r img.c fun i j =>
    if maxI / 10 < I.px i j then bt.px i j / (I.px i j + preConst) else 0
  let Rc := Image.mk2 img.r img.c fun i j =>
    let v := rn.px i j - (gn.px i j + bn.px i j) / 2
    if 0 < v then v else 0
  let Gc := Image.mk2 img.r img.c fun i j =>
    let v := gn.px i j - (rn.px i j + bn.px i j) / 2
    if 0 < v then v else 0
  let Bc := Image.mk2 img.r img.c fun i j =>
    let v := bn.px i j - (gn.px i j + rn.px i j) / 2
    if 0 < v then v else 0
  let Yc := Image.mk2 img.r img.c fun i j =>
    let v := (rn.px i j + gn.px i j) / 2 - |rn.px i j - gn.px i j| / 2 -
      bn.px i j
    if 0 < v then v else 0
  let Ip := gaussian_pyramid I pyramid_levels
  let Rp := gaussian_pyramid Rc pyramid_levels
  let Gp := gaussian_pyramid Gc pyramid_levels
  let Bp := gaussian_pyramid Bc pyramid_levels
  let Yp := gaussian_pyramid Yc pyramid_levels
  let O0 := orientation_pyramid (hGb 0) I pyramid_levels
  let O45 := orientation_pyramid (hGb 45) I pyramid_levels
  let O90 := orientation_pyramid (hGb 90) I pyramid_levels
  let O135 := orientation_pyramid (hGb 135) I pyramid_levels
  do
    let Csdi ← centre_surround_feature_map Ip centre delta
    let Csdrg ← centre_surround_colour_feature_map Rp Gp centre delta
    let Csdby ← centre_surround_colour_feature_map Bp Yp centre delta
    let Csdor0 ← centre_surround_feature_map O0 centre delta
    let Csdor45 ← centre_surround_feature_map O45 centre delta
    let Csdor90 ← centre_surround_feature_map O90 centre delta
    let Csdor135 ← centre_surround_feature_map O135 centre delta
    let Csdor := Csdor0 ++ Csdor45 ++ Csdor90 ++ Csdor135
    let CmI ← conspicuity_map hFam Csdi lps
    let CmC ← conspicuity_map hFam (Csdrg ++ Csdby) lps
    let CmO ← conspicuity_map hFam Csdor lps
    pure ((Image.add (Image.add CmI CmC) CmO).divC 3)

/-- Sample of an optional image (0 if the computation was poisoned/raised):
used to state concrete evaluations of `Option Image` results. -/
def opx (o : Option Image) (i j : Nat) : ℚ := ((o.getD dfltImg).px i j)

/-- A constant DoG kernel family with value `q`, standing for concrete
parameter choices of the source (for a 1×1 input image the real kernel is
the single value `co^2/(2 pi sigmao^2) - ci^2/(2 pi sigmai^2)`, which is
negative whenever `co` is small against `ci`). -/
def hFamConst (q : ℚ) : Nat → Nat → Image :=
  fun r c => Image.mk2 r c fun _ _ => q

/-- The all-zero DoG kernel family (concrete kernel environment). -/
def zeroKernelFam : Nat → Nat → Image := fun r c => zerosImg r c

/-- A concrete (zero) Gabor kernel environment. -/
def gaborZero : Nat → Image := fun _ => zerosImg 1 1

/-- The 1×1 image holding the single sample 1. -/
def onePx : Image := Image.mk2 1 1 fun _ _ => 1

/-- The 1×1 image holding the single sample 2. -/
def twoPx : Image := Image.mk2 1 1 fun _ _ => 2

/-- A uniform gray 2×2 RGB image (every channel of every pixel is 100). -/
def uniformGray : Rgb := ⟨2, 2, fun _ _ _ => 100⟩

/-! ## Theorems -/

theorem mk2_r (r c : Nat) (f : Nat → Nat → ℚ) : (Image.mk2 r c f).r = r := rfl

theorem mk2_c (r c : Nat) (f : Nat → Nat → ℚ) : (Image.mk2 r c f).c = c := rfl

theorem mk2_canonical (r c : Nat) (f : Nat → Nat → ℚ) :
    Canonical (Image.mk2 r c f) := by
  intro i j h
  simp only [Image.mk2]
  exact if_neg h

/-- C1: the claim says a map whose maximum is, or during iteration becomes,
exactly zero makes `difference_of_gaussians_filtering_and_update` return an
all-zero map.  The code does neither: an input whose maximum is exactly 0 is
divided by that zero maximum with no guard (NaN poisoning, modelled `none`),
and when the update makes every entry non-positive the loop breaks with the
dead store `filtmin = 0` — the returned map keeps its unmasked non-zero
(negative) entries, here the single sample `-38/25`. -/
theorem dog_break_returns_nonzero_map :
    difference_of_gaussians_filtering_and_update (hFamConst (-(5/2))) (1/50) 1
        (zerosImg 1 1) = none
    ∧ opx (difference_of_gaussians_filtering_and_update (hFamConst (-(5/2)))
        (1/50) 1 onePx) 0 0 = -(38/25)
    ∧ -(38/25 : ℚ) ≠ 0 := by
  refine ⟨by with_unfolding_all rfl, by with_unfolding_all rfl, by norm_num⟩

/-- C3: the claim says the output of
`difference_of_gaussians_filtering_and_update` never contains a negative
value.  When the update drives every entry non-positive, the loop breaks
before the masking step (dead store `filtmin = 0` instead of `filtim = 0`),
so the returned map is negative: on the 1×1 input with sample 2 and a
strongly negative DoG kernel the returned sample is `-101/50 < 0`. -/
theorem dog_output_negative_entry :
    opx (difference_of_gaussians_filtering_and_update (hFamConst (-3)) (1/50) 1
      twoPx) 0 0 < 0 := by
  have h : opx (difference_of_gaussians_filtering_and_update (hFamConst (-3))
      (1/50) 1 twoPx) 0 0 = -(101/50) := by with_unfolding_all rfl
  rw [h]; norm_num

set_option maxRecDepth 8000 in
/-- C2: the claim says every entry of the saliency map returned by `smikn`
lies in [0,1] because each conspicuity map does.  On a uniform gray image all
feature maps are exactly zero, the DoG normalisation divides by the zero
maximum with no guard, and the resulting NaN poisoning (modelled `none`)
propagates to the saliency map, whose entries are therefore not in [0,1]. -/
theorem smikn_uniform_poisoned :
    smikn zeroKernelFam gaborZero uniformGray 1 [1] [1] = none := by
  with_unfolding_all rfl

/-- C4 counterexample: the claim's shape rule `ceil((r+1)/2)` fails on even
sizes: for a 2×2 input the first pyramid level is 1×1, while
`ceil((2+1)/2) = 2`. -/
theorem gaussian_pyramid_shape_counterexample :
    ((gaussian_pyramid (zerosImg 2 2) 1).headD dfltImg).r = 1
    ∧ ((zerosImg 2 2).r + 1 + 1) / 2 = 2
    ∧ (1 : Nat) ≠ 2 := by
  refine ⟨rfl, rfl, by omega⟩

/-- C9 counterexample: `smikn` computes the pyramid depth from the *last*
elements `centre[-1] + delta[-1]`, not from the maxima: for
`centre = [3,2]`, `delta = [4,3]` the depth used is `2 + 3 = 5`, the pyramids
really get 5 levels, but `max(centre) + max(delta) = 7`. -/
theorem smikn_depth_counterexample :
    smiknPyramidLevels [3, 2] [4, 3] = 5
    ∧ [3, 2].foldl max 0 + [4, 3].foldl max 0 = 7
    ∧ (gaussian_pyramid (zerosImg 4 4) (smiknPyramidLevels [3, 2] [4, 3])).length = 5
    ∧ (5 : Nat) ≠ 7 := by
  refine ⟨rfl, rfl, rfl, by omega⟩

theorem igp_length (im : Image) (n : Nat) :
    (image_gaussian_pyramid im n).length = n := by
  induction n generalizing im with
  | zero => rfl
  | succ n ih => simp [image_gaussian_pyramid, ih]



theorem pyrDownIter_zero (im : Image) : pyrDownIter 0 im = im := rfl

theorem pyrDownIter_succ (k : Nat) (im : Image) :
    pyrDownIter (k + 1) im = pyrDownIter k (pyrDown im) := rfl

theorem igp_succ (im : Image) (n : Nat) :
    image_gaussian_pyramid im (n + 1)
      = pyrDown im :: image_gaussian_pyramid (pyrDown im) n := rfl

theorem pyrDown_r (im : Image) : (pyrDown im).r = (im.r + 1) / 2 := rfl

theorem pyrDown_c (im : Image) : (pyrDown im).c = (im.c + 1) / 2 := rfl

theorem pyrDownIter_comm (k : Nat) (im : Image) :
    pyrDownIter k (pyrDown im) = pyrDown (pyrDownIter k im) := by
  induction k generalizing im with
  | zero =>
    exact (pyrDownIter_zero (pyrDown im)).trans
      (congrArg pyrDown (pyrDownIter_zero im)).symm
  | succ k ih =>
    exact (pyrDownIter_succ k (pyrDown im)).trans
      ((ih (pyrDown im)).trans (congrArg pyrDown (pyrDownIter_succ k im)).symm)

theorem pyrDownIter_succ_right (k : Nat) (im : Image) :
    pyrDownIter (k + 1) im = pyrDown (pyrDownIter k im) :=
  (pyrDownIter_succ k im).trans (pyrDownIter_comm k im)

theorem igp_getD (im : Image) (n i : Nat) (h : i < n) :
    (image_gaussian_pyramid im n).getD i dfltImg = pyrDownIter (i + 1) im := by
  induction n generalizing im i with
  | zero => omega
  | succ n ih =>
    cases i with
    | zero =>
      show pyrDown im = pyrDownIter 1 im
      exact ((pyrDownIter_succ 0 im).trans (pyrDownIter_zero (pyrDown im))).symm
    | succ i =>
      show (image_gaussian_pyramid (pyrDown im) n).getD i dfltImg
        = pyrDownIter (i + 2) im
      rw [ih (pyrDown im) i (by omega)]
      exact (pyrDownIter_succ (i + 1) im).symm

/-- C10: `gaussian_pyramid` never contains the original image: level `i`
(0-based) is the input downsampled `i + 1` times by `cv2.pyrDown`, so the
1-based level index `c` used by the centre-surround computations refers to an
image downsampled `c` times, and the head of the pyramid is `pyrDown im`,
one blur-and-downsample step applied to `im`, not `im` itself. -/
theorem gaussian_pyramid_levels_downsampled (im : Image) (n i : Nat)
    (h : i < n) :
    (gaussian_pyramid im n).getD i dfltImg = pyrDownIter (i + 1) im
    ∧ (0 < n → (gaussian_pyramid im n).headD dfltImg = pyrDown im) := by
  constructor
  · exact igp_getD im n i h
  · intro hn
    cases n with
    | zero => omega
    | succ n => rfl

theorem gaussian_pyramid_levels_downsampled_witness :
    0 < 2
    ∧ ((gaussian_pyramid onePx 2).getD 1 dfltImg = pyrDownIter 2 onePx
       ∧ (0 < 2 → (gaussian_pyramid onePx 2).headD dfltImg = pyrDown onePx)) :=
  ⟨by omega, gaussian_pyramid_levels_downsampled onePx 2 1 (by omega)⟩

theorem opSteps_succ (im : Image) (k : Nat) :
    opSteps im (k + 1) = opStep im :: opSteps (opStep im).2 k := rfl

theorem opStep_snd_r (im : Image) : (opStep im).2.r = (im.r + 1) / 2 := rfl

theorem opStep_snd_c (im : Image) : (opStep im).2.c = (im.c + 1) / 2 := rfl

theorem opSteps_getD_zero_r (im : Image) (k : Nat) (h : 0 < k) :
    ((opSteps im k).getD 0 dfltPair).2.r = (im.r + 1) / 2 := by
  cases k with
  | zero => omega
  | succ k => rfl

theorem opSteps_getD_zero_c (im : Image) (k : Nat) (h : 0 < k) :
    ((opSteps im k).getD 0 dfltPair).2.c = (im.c + 1) / 2 := by
  cases k with
  | zero => omega
  | succ k => rfl

theorem opSteps_getD_succ_r (k : Nat) (im : Image) (i : Nat) (h : i + 1 < k) :
    ((opSteps im k).getD (i + 1) dfltPair).2.r
      = (((opSteps im k).getD i dfltPair).2.r + 1) / 2 := by
  induction k generalizing im i with
  | zero => omega
  | succ k ih =>
    cases i with
    | zero =>
      cases k with
      | zero => omega
      | succ k2 => rfl
    | succ i =>
      show ((opSteps (opStep im).2 k).getD (i + 1) dfltPair).2.r
        = (((opSteps (opStep im).2 k).getD i dfltPair).2.r + 1) / 2
      exact ih (opStep im).2 i (by omega)

theorem opSteps_getD_succ_c (k : Nat) (im : Image) (i : Nat) (h : i + 1 < k) :
    ((opSteps im k).getD (i + 1) dfltPair).2.c
      = (((opSteps im k).getD i dfltPair).2.c + 1) / 2 := by
  induction k generalizing im i with
  | zero => omega
  | succ k ih =>
    cases i with
    | zero =>
      cases k with
      | zero => omega
      | succ k2 => rfl
    | succ i =>
      show ((opSteps (opStep im).2 k).getD (i + 1) dfltPair).2.c
        = (((opSteps (opStep im).2 k).getD i dfltPair).2.c + 1) / 2
      exact ih (opStep im).2 i (by omega)

theorem orientation_pyramid_def (hGb im : Image) (L : Nat) :
    orientation_pyramid hGb im L = (List.range L).map fun i =>
      convolve2d_wrap
        (Image.sub ((opSteps im (L + 1)).getD i dfltPair).2
          ((opSteps im (L + 1)).getD (i + 1) dfltPair).1) hGb := rfl

theorem range_map_getD {α : Type} (f : Nat → α) (L i : Nat) (d : α)
    (h : i < L) : ((List.range L).map f).getD i d = f i := by
  rw [List.getD_eq_getElem?_getD, List.getElem?_map, List.getElem?_range h]
  rfl

/-- C4 (amended): a Gaussian pyramid built to depth `n` has exactly `n`
levels, and the shapes shrink by the truncating rule
`r' = floor((r+1)/2) = ceil(r/2)` (not `ceil((r+1)/2)`, which fails for even
sizes — see the counterexample): level 0 relative to the input and each level
`i+1` relative to level `i`; the per-level subsampled sizes of
`orientation_pyramid` follow the same rule. -/
theorem pyramid_shape_rule (im hGb : Image) (n L : Nat) :
    (gaussian_pyramid im n).length = n
    ∧ (0 < n → ((gaussian_pyramid im n).getD 0 dfltImg).r = (im.r + 1) / 2
        ∧ ((gaussian_pyramid im n).getD 0 dfltImg).c = (im.c + 1) / 2)
    ∧ (∀ i, i + 1 < n →
        ((gaussian_pyramid im n).getD (i + 1) dfltImg).r
          = (((gaussian_pyramid im n).getD i dfltImg).r + 1) / 2
        ∧ ((gaussian_pyramid im n).getD (i + 1) dfltImg).c
          = (((gaussian_pyramid im n).getD i dfltImg).c + 1) / 2)
    ∧ (orientation_pyramid hGb im L).length = L
    ∧ (0 < L → ((orientation_pyramid hGb im L).getD 0 dfltImg).r = (im.r + 1) / 2
        ∧ ((orientation_pyramid hGb im L).getD 0 dfltImg).c = (im.c + 1) / 2)
    ∧ (∀ i, i + 1 < L →
        ((orientation_pyramid hGb im L).getD (i + 1) dfltImg).r
          = (((orientation_pyramid hGb im L).getD i dfltImg).r + 1) / 2
        ∧ ((orientation_pyramid hGb im L).getD (i + 1) dfltImg).c
          = (((orientation_pyramid hGb im L).getD i dfltImg).c + 1) / 2) := by
  refine ⟨igp_length im n, ?_, ?_, ?_, ?_, ?_⟩
  · intro hn
    rw [show (gaussian_pyramid im n).getD 0 dfltImg = pyrDownIter 1 im from
      igp_getD im n 0 hn]
    exact ⟨rfl, rfl⟩
  · intro i hi
    rw [show (gaussian_pyramid im n).getD (i + 1) dfltImg
        = pyrDownIter (i + 2) im from igp_getD im n (i + 1) hi,
      show (gaussian_pyramid im n).getD i dfltImg = pyrDownIter (i + 1) im from
        igp_getD im n i (by omega),
      pyrDownIter_succ_right (i + 1) im]
    exact ⟨rfl, rfl⟩
  · rw [orientation_pyramid_def, List.length_map, List.length_range]
  · intro hL
    rw [orientation_pyramid_def, range_map_getD _ L 0 dfltImg hL]
    exact ⟨opSteps_getD_zero_r im (L + 1) (by omega),
      opSteps_getD_zero_c im (L + 1) (by omega)⟩
  · intro i hi
    rw [orientation_pyramid_def, range_map_getD _ L (i + 1) dfltImg hi,
      range_map_getD _ L i dfltImg (by omega)]
    exact ⟨opSteps_getD_succ_r (L + 1) im i (by omega),
      opSteps_getD_succ_c (L + 1) im i (by omega)⟩

theorem pyramid_shape_rule_witness :
    ((gaussian_pyramid (zerosImg 3 3) 2).getD 0 dfltImg).r
        = ((zerosImg 3 3).r + 1) / 2
    ∧ ((gaussian_pyramid (zerosImg 3 3) 2).getD 1 dfltImg).r
        = (((gaussian_pyramid (zerosImg 3 3) 2).getD 0 dfltImg).r + 1) / 2
    ∧ ((orientation_pyramid (zerosImg 1 1) (zerosImg 3 3) 2).getD 1 dfltImg).r
        = (((orientation_pyramid (zerosImg 1 1) (zerosImg 3 3) 2).getD 0
            dfltImg).r + 1) / 2 :=
  ⟨((pyramid_shape_rule (zerosImg 3 3) (zerosImg 1 1) 2 2).2.1 (by omega)).1,
   ((pyramid_shape_rule (zerosImg 3 3) (zerosImg 1 1) 2 2).2.2.1 0
     (by omega)).1,
   ((pyramid_shape_rule (zerosImg 3 3) (zerosImg 1 1) 2 2).2.2.2.2.2 0
     (by omega)).1⟩

theorem foldl_max_shift (l : List Nat) (a : Nat) :
    l.foldl max a = max a (l.foldl max 0) := by
  induction l generalizing a with
  | nil => simp
  | cons x t ih =>
    simp only [List.foldl_cons]
    rw [ih (max a x), ih (max 0 x)]
    simp [Nat.max_comm, Nat.max_assoc, Nat.max_left_comm]

theorem mem_le_foldl_max (l : List Nat) (a : Nat) (h : a ∈ l) :
    a ≤ l.foldl max 0 := by
  induction l with
  | nil => simp at h
  | cons x t ih =>
    simp only [List.foldl_cons]
    rw [foldl_max_shift]
    rcases List.mem_cons.mp h with h1 | h2
    · omega
    · exact le_trans (ih h2) (by omega)

theorem getLastD_sorted_foldl_max (l : List Nat) (hs : l.Pairwise (· ≤ ·))
    (hne : l ≠ []) : l.getLastD 0 = l.foldl max 0 := by
  induction l with
  | nil => exact absurd rfl hne
  | cons x t ih =>
    cases t with
    | nil => simp
    | cons y t2 =>
      have hp := List.pairwise_cons.mp hs
      have h1 : x ≤ y := hp.1 y (by simp)
      have h2 := ih hp.2 (by simp)
      show (y :: t2).getLastD 0 = (x :: y :: t2).foldl max 0
      rw [h2]
      simp only [List.foldl_cons]
      rw [foldl_max_shift t2 (max 0 y), foldl_max_shift t2 (max (max 0 x) y)]
      omega

/-- C9 (amended): the pyramid depth used by `smikn` is
`centre[-1] + delta[-1]`, the sum of the *last* elements of the two tuples;
when both tuples are non-empty and sorted in ascending order (as the defaults
`(2,3,4)` and `(3,4)` are) this coincides with `max(centre) + max(delta)`. -/
theorem smikn_depth_last_of_sorted (centre delta : List Nat)
    (h1 : centre ≠ []) (h2 : delta ≠ [])
    (h3 : centre.Pairwise (· ≤ ·)) (h4 : delta.Pairwise (· ≤ ·)) :
    smiknPyramidLevels centre delta
      = centre.foldl max 0 + delta.foldl max 0 := by
  show centre.getLastD 0 + delta.getLastD 0 = _
  rw [getLastD_sorted_foldl_max centre h3 h1,
    getLastD_sorted_foldl_max delta h4 h2]

theorem smikn_depth_last_of_sorted_witness :
    (([2, 3, 4] : List Nat) ≠ [] ∧ (([2, 3, 4] : List Nat)).Pairwise (· ≤ ·))
    ∧ smiknPyramidLevels [2, 3, 4] [3, 4]
        = [2, 3, 4].foldl max 0 + [3, 4].foldl max 0 :=
  ⟨⟨by simp, by simp⟩,
   smikn_depth_last_of_sorted [2, 3, 4] [3, 4] (by simp) (by simp)
     (by simp) (by simp)⟩

theorem pyGet_nat (p : List Image) (k : Nat) (hk : k < p.length) :
    pyGet p (k : Int) = some (p.getD k dfltImg) := by
  have h0 : ¬ ((k : Int) < 0) := by omega
  simp only [pyGet, h0, if_false, Int.toNat_natCast]
  rw [List.get?_eq_getElem?, List.getD_eq_getElem?_getD,
    List.getElem?_eq_getElem hk]
  rfl

theorem pyGet_oob (p : List Image) (k : Int) (h0 : 0 ≤ k)
    (h : (p.length : Int) ≤ k) : pyGet p k = none := by
  have h1 : ¬ (k < 0) := by omega
  simp only [pyGet, h1, if_false]
  rw [List.get?_eq_getElem?]
  exact List.getElem?_eq_none (by omega)

theorem map_getD {α β : Type} (f : α → β) (l : List α) (b : Nat) (d : β)
    (d2 : α) (hb : b < l.length) : (l.map f).getD b d = f (l.getD b d2) := by
  rw [List.getD_eq_getElem?_getD, List.getElem?_map,
    List.getElem?_eq_getElem hb, List.getD_eq_getElem?_getD,
    List.getElem?_eq_getElem hb]
  rfl

theorem getD_mem {α : Type} (l : List α) (a : Nat) (d : α) (ha : a < l.length) :
    l.getD a d ∈ l := by
  rw [List.getD_eq_getElem?_getD, List.getElem?_eq_getElem ha]
  exact List.getElem_mem ha

theorem flatMap_map_length {α : Type} (g : Nat → Nat → α)
    (center delta : List Nat) :
    (center.flatMap fun i => delta.map fun j => g i j).length
      = center.length * delta.length := by
  induction center with
  | nil => simp
  | cons i t ih =>
    simp only [List.flatMap_cons, List.length_append, List.length_map,
      List.length_cons, ih]
    ring

theorem flatMap_map_getD {α : Type} (g : Nat → Nat → α)
    (center delta : List Nat) (a b : Nat) (d : α)
    (ha : a < center.length) (hb : b < delta.length) :
    (center.flatMap fun i => delta.map fun j => g i j).getD
        (a * delta.length + b) d
      = g (center.getD a 0) (delta.getD b 0) := by
  induction center generalizing a with
  | nil => simp at ha
  | cons i t ih =>
    cases a with
    | zero =>
      simp only [List.flatMap_cons, Nat.zero_mul, Nat.zero_add]
      rw [List.getD_append _ _ _ _ (by simpa using hb)]
      exact map_getD _ delta b d 0 hb
    | succ a2 =>
      simp only [List.flatMap_cons]
      have harith : (a2 + 1) * delta.length + b
          = delta.length + (a2 * delta.length + b) := by ring
      rw [harith, List.getD_append_right _ _ _ _ (by simp)]
      simp only [List.length_map, Nat.add_sub_cancel_left]
      exact ih a2 (by simpa using ha)

theorem innerFoldlM_some (g : Nat → Option Image) (delta : List Nat)
    (h : ∀ j ∈ delta, (g j).isSome = true) (acc : List Image) :
    delta.foldlM (csStep g) acc
      = some (acc ++ delta.map fun j => (g j).getD dfltImg) := by
  induction delta generalizing acc with
  | nil => simp
  | cons j t ih =>
    obtain ⟨m, hm⟩ := Option.isSome_iff_exists.mp (h j (by simp))
    have hstep : csStep g acc j = some (acc ++ [m]) := by simp [csStep, hm]
    rw [List.foldlM_cons, hstep]
    simp only [Option.bind_eq_bind, Option.some_bind]
    rw [ih (fun j2 hj2 => h j2 (by simp [hj2])) (acc ++ [m])]
    simp [hm]

theorem innerFoldlM_none (g : Nat → Option Image) (delta : List Nat)
    (hj : ∃ j ∈ delta, g j = none) (acc : List Image) :
    delta.foldlM (csStep g) acc = none := by
  induction delta generalizing acc with
  | nil => simp at hj
  | cons j t ih =>
    by_cases h0 : g j = none
    · have hstep : csStep g acc j = none := by simp [csStep, h0]
      rw [List.foldlM_cons, hstep]
      rfl
    · obtain ⟨m, hm⟩ := Option.ne_none_iff_exists.mp h0
      have hstep : csStep g acc j = some (acc ++ [m]) := by
        simp [csStep, ← hm]
      rw [List.foldlM_cons, hstep]
      simp only [Option.bind_eq_bind, Option.some_bind]
      apply ih
      rcases hj with ⟨j2, hj2, hn2⟩
      rcases List.mem_cons.mp hj2 with h1 | h2
      · subst h1; exact absurd hn2 h0
      · exact ⟨j2, h2, hn2⟩

theorem nestedCS_some_aux (body : Nat → Nat → Option Image)
    (center delta : List Nat)
    (h : ∀ i ∈ center, ∀ j ∈ delta, (body i j).isSome = true)
    (acc : List Image) :
    (center.foldlM (fun out i => delta.foldlM (csStep (body i)) out) acc)
      = some (acc ++ center.flatMap fun i =>
          delta.map fun j => (body i j).getD dfltImg) := by
  induction center generalizing acc with
  | nil => simp
  | cons i t ih =>
    rw [List.foldlM_cons,
      innerFoldlM_some (body i) delta (h i (by simp)) acc]
    simp only [Option.bind_eq_bind, Option.some_bind]
    rw [ih (fun i2 hi2 => h i2 (by simp [hi2]))]
    simp

theorem nestedCS_some (body : Nat → Nat → Option Image)
    (center delta : List Nat)
    (h : ∀ i ∈ center, ∀ j ∈ delta, (body i j).isSome = true) :
    nestedCS body center delta
      = some (center.flatMap fun i =>
          delta.map fun j => (body i j).getD dfltImg) := by
  rw [show nestedCS body center delta = center.foldlM
      (fun out i => delta.foldlM (csStep (body i)) out) [] from rfl,
    nestedCS_some_aux body center delta h []]
  simp

theorem nestedCS_none_aux (body : Nat → Nat → Option Image)
    (center delta : List Nat) (i j : Nat) (hi : i ∈ center) (hj : j ∈ delta)
    (hn : body i j = none) (acc : List Image) :
    (center.foldlM (fun out i => delta.foldlM (csStep (body i)) out) acc)
      = none := by
  induction center generalizing acc with
  | nil => simp at hi
  | cons i0 t ih =>
    by_cases hb : ∃ j2 ∈ delta, body i0 j2 = none
    · rw [List.foldlM_cons, innerFoldlM_none (body i0) delta hb acc]
      rfl
    · push_neg at hb
      have hall : ∀ j2 ∈ delta, (body i0 j2).isSome = true := fun j2 hj2 =>
        Option.ne_none_iff_isSome.mp (hb j2 hj2)
      rw [List.foldlM_cons, innerFoldlM_some (body i0) delta hall acc]
      simp only [Option.bind_eq_bind, Option.some_bind]
      rcases List.mem_cons.mp hi with h1 | h2
      · subst h1
        exact absurd hn (hb j hj)
      · exact ih h2 _

theorem nestedCS_none (body : Nat → Nat → Option Image)
    (center delta : List Nat) (i j : Nat) (hi : i ∈ center) (hj : j ∈ delta)
    (hn : body i j = none) : nestedCS body center delta = none := by
  rw [show nestedCS body center delta = center.foldlM
      (fun out i => delta.foldlM (csStep (body i)) out) [] from rfl]
  exact nestedCS_none_aux body center delta i j hi hj hn []

theorem csBody_eval (pyrmd : List Image) (c d : Nat) (hc : 1 ≤ c)
    (hcd : c + d ≤ pyrmd.length) :
    csBody pyrmd c d
      = some (Image.absIm (Image.sub (pyrmd.getD (c - 1) dfltImg)
          (cvResize (pyrmd.getD (c + d - 1) dfltImg)
            (pyrmd.getD (c - 1) dfltImg).r
            (pyrmd.getD (c - 1) dfltImg).c))) := by
  have e1 : (d : Int) + (c : Int) - 1 = ((c + d - 1 : Nat) : Int) := by omega
  have e2 : (c : Int) - 1 = ((c - 1 : Nat) : Int) := by omega
  simp only [csBody, e1, e2,
    pyGet_nat pyrmd (c + d - 1) (by omega),
    pyGet_nat pyrmd (c - 1) (by omega)]
  rfl

theorem csBody_oob (pyrmd : List Image) (c d : Nat) (hc : 1 ≤ c)
    (h : pyrmd.length ≤ c + d - 1) : csBody pyrmd c d = none := by
  have e1 : (d : Int) + (c : Int) - 1 = ((c + d - 1 : Nat) : Int) := by omega
  simp only [csBody, e1,
    pyGet_oob pyrmd ((c + d - 1 : Nat) : Int) (by omega) (by omega)]
  rfl

theorem ccsBody_eval (Ap Bp : List Image) (c d : Nat) (hc : 1 ≤ c)
    (hA : c + d ≤ Ap.length) (hB : c + d ≤ Bp.length) :
    ccsBody Ap Bp c d
      = some (Image.absIm (Image.sub
          (Image.sub (Ap.getD (c - 1) dfltImg) (Bp.getD (c - 1) dfltImg))
          (Image.sub
            (cvResize (Bp.getD (c + d - 1) dfltImg)
              (Bp.getD (c - 1) dfltImg).r (Bp.getD (c - 1) dfltImg).c)
            (cvResize (Ap.getD (c + d - 1) dfltImg)
              (Ap.getD (c - 1) dfltImg).r
              (Ap.getD (c - 1) dfltImg).c)))) := by
  have e1 : (d : Int) + (c : Int) - 1 = ((c + d - 1 : Nat) : Int) := by omega
  have e2 : (c : Int) - 1 = ((c - 1 : Nat) : Int) := by omega
  simp only [ccsBody, e1, e2,
    pyGet_nat Ap (c + d - 1) (by omega),
    pyGet_nat Ap (c - 1) (by omega),
    pyGet_nat Bp (c + d - 1) (by omega),
    pyGet_nat Bp (c - 1) (by omega)]
  rfl

theorem ccsBody_oob (Ap Bp : List Image) (c d : Nat) (hc : 1 ≤ c)
    (h : Ap.length ≤ c + d - 1 ∨ Bp.length ≤ c + d - 1) :
    ccsBody Ap Bp c d = none := by
  have e1 : (d : Int) + (c : Int) - 1 = ((c + d - 1 : Nat) : Int) := by omega
  have e2 : (c : Int) - 1 = ((c - 1 : Nat) : Int) := by omega
  rcases h with hA | hB
  · simp only [ccsBody, e1,
      pyGet_oob Ap ((c + d - 1 : Nat) : Int) (by omega) (by omega)]
    rfl
  · by_cases hA2 : c + d ≤ Ap.length
    · simp only [ccsBody, e1, e2,
        pyGet_nat Ap (c + d - 1) (by omega),
        pyGet_nat Ap (c - 1) (by omega),
        pyGet_oob Bp ((c + d - 1 : Nat) : Int) (by omega) (by omega)]
      rfl
    · simp only [ccsBody, e1,
        pyGet_oob Ap ((c + d - 1 : Nat) : Int) (by omega) (by omega)]
      rfl

theorem absIm_px_nonneg (a : Image) (x y : Nat) :
    0 ≤ (Image.absIm a).px x y := by
  show 0 ≤ if x < a.r ∧ y < a.c then |a.px x y| else 0
  split
  · exact abs_nonneg _
  · exact le_refl 0

/-- C6: with `|center| = m` and `|delta| = k` and every requested level
within the pyramid depth, `centre_surround_feature_map` returns exactly
`m * k` maps in center-outer/delta-inner order (position `a * k + b` holds
the map of the pair `(center[a], delta[b])`), each map is the absolute
centre-surround difference at level `c - 1`, has the shape of pyramid level
`c - 1`, and all of its samples are non-negative. -/
theorem feature_map_count_shape_nonneg (pyrmd : List Image)
    (center delta : List Nat)
    (hin : ∀ c ∈ center, 1 ≤ c ∧ ∀ d ∈ delta, c + d ≤ pyrmd.length) :
    ∃ out, centre_surround_feature_map pyrmd center delta = some out
      ∧ out.length = center.length * delta.length
      ∧ ∀ a b, a < center.length → b < delta.length →
          out.getD (a * delta.length + b) dfltImg
            = Image.absIm (Image.sub (pyrmd.getD (center.getD a 0 - 1) dfltImg)
                (cvResize
                  (pyrmd.getD (center.getD a 0 + delta.getD b 0 - 1) dfltImg)
                  (pyrmd.getD (center.getD a 0 - 1) dfltImg).r
                  (pyrmd.getD (center.getD a 0 - 1) dfltImg).c))
          ∧ (out.getD (a * delta.length + b) dfltImg).r
              = (pyrmd.getD (center.getD a 0 - 1) dfltImg).r
          ∧ (out.getD (a * delta.length + b) dfltImg).c
              = (pyrmd.getD (center.getD a 0 - 1) dfltImg).c
          ∧ ∀ x y, 0 ≤ (out.getD (a * delta.length + b) dfltImg).px x y := by
  have hsome : ∀ i ∈ center, ∀ j ∈ delta, (csBody pyrmd i j).isSome = true :=
    fun i hi j hj => by
      rw [csBody_eval pyrmd i j (hin i hi).1 ((hin i hi).2 j hj)]
      rfl
  refine ⟨_, nestedCS_some (csBody pyrmd) center delta hsome,
    flatMap_map_length _ center delta, ?_⟩
  intro a b ha hb
  rw [flatMap_map_getD _ center delta a b dfltImg ha hb]
  have hc := hin (center.getD a 0) (getD_mem center a 0 ha)
  have hd := hc.2 (delta.getD b 0) (getD_mem delta b 0 hb)
  rw [csBody_eval pyrmd (center.getD a 0) (delta.getD b 0) hc.1 hd]
  refine ⟨rfl, rfl, rfl, ?_⟩
  intro x y
  exact absIm_px_nonneg _ x y

theorem feature_map_count_shape_nonneg_witness :
    (∀ c ∈ ([1] : List Nat), 1 ≤ c ∧ ∀ d ∈ ([1] : List Nat),
      c + d ≤ [onePx, twoPx].length)
    ∧ ∃ out, centre_surround_feature_map [onePx, twoPx] [1] [1] = some out
      ∧ out.length = [1].length * [1].length
      ∧ ∀ a b, a < [1].length → b < [1].length →
          out.getD (a * [1].length + b) dfltImg
            = Image.absIm (Image.sub
                ([onePx, twoPx].getD ([1].getD a 0 - 1) dfltImg)
                (cvResize
                  ([onePx, twoPx].getD ([1].getD a 0 + [1].getD b 0 - 1)
                    dfltImg)
                  ([onePx, twoPx].getD ([1].getD a 0 - 1) dfltImg).r
                  ([onePx, twoPx].getD ([1].getD a 0 - 1) dfltImg).c))
          ∧ (out.getD (a * [1].length + b) dfltImg).r
              = ([onePx, twoPx].getD ([1].getD a 0 - 1) dfltImg).r
          ∧ (out.getD (a * [1].length + b) dfltImg).c
              = ([onePx, twoPx].getD ([1].getD a 0 - 1) dfltImg).c
          ∧ ∀ x y, 0 ≤ (out.getD (a * [1].length + b) dfltImg).px x y :=
  ⟨by decide,
   feature_map_count_shape_nonneg [onePx, twoPx] [1] [1] (by decide)⟩

/-- C5: for every pair of opponent pyramids and every `(c, d)`,
`centre_surround_colour_feature_map` outputs
`|(A[c-1] - B[c-1]) - (resize(B[c+d-1]) - resize(A[c+d-1]))|`, each surround
level resized to the shape of the corresponding centre level, with the
operand order of the surround difference swapped relative to the centre
difference, and the output list in center-outer/delta-inner order
(position `a * k + b` holds the pair `(center[a], delta[b])`). -/
theorem colour_feature_map_formula (Ap Bp : List Image)
    (center delta : List Nat)
    (hin : ∀ c ∈ center, 1 ≤ c ∧ ∀ d ∈ delta,
      c + d ≤ Ap.length ∧ c + d ≤ Bp.length) :
    ∃ out, centre_surround_colour_feature_map Ap Bp center delta = some out
      ∧ out.length = center.length * delta.length
      ∧ ∀ a b, a < center.length → b < delta.length →
          out.getD (a * delta.length + b) dfltImg
            = Image.absIm (Image.sub
                (Image.sub (Ap.getD (center.getD a 0 - 1) dfltImg)
                  (Bp.getD (center.getD a 0 - 1) dfltImg))
                (Image.sub
                  (cvResize
                    (Bp.getD (center.getD a 0 + delta.getD b 0 - 1) dfltImg)
                    (Bp.getD (center.getD a 0 - 1) dfltImg).r
                    (Bp.getD (center.getD a 0 - 1) dfltImg).c)
                  (cvResize
                    (Ap.getD (center.getD a 0 + delta.getD b 0 - 1) dfltImg)
                    (Ap.getD (center.getD a 0 - 1) dfltImg).r
                    (Ap.getD (center.getD a 0 - 1) dfltImg).c))) := by
  have hsome : ∀ i ∈ center, ∀ j ∈ delta,
      (ccsBody Ap Bp i j).isSome = true := fun i hi j hj => by
    rw [ccsBody_eval Ap Bp i j (hin i hi).1 ((hin i hi).2 j hj).1
      ((hin i hi).2 j hj).2]
    rfl
  refine ⟨_, nestedCS_some (ccsBody Ap Bp) center delta hsome,
    flatMap_map_length _ center delta, ?_⟩
  intro a b ha hb
  rw [flatMap_map_getD _ center delta a b dfltImg ha hb]
  have hc := hin (center.getD a 0) (getD_mem center a 0 ha)
  have hd := hc.2 (delta.getD b 0) (getD_mem delta b 0 hb)
  rw [ccsBody_eval Ap Bp (center.getD a 0) (delta.getD b 0) hc.1 hd.1 hd.2]
  rfl

theorem colour_feature_map_formula_witness :
    (∀ c ∈ ([1] : List Nat), 1 ≤ c ∧ ∀ d ∈ ([1] : List Nat),
      c + d ≤ [onePx, twoPx].length ∧ c + d ≤ [twoPx, onePx].length)
    ∧ ∃ out,
      centre_surround_colour_feature_map [onePx, twoPx] [twoPx, onePx] [1] [1]
          = some out
      ∧ out.length = [1].length * [1].length
      ∧ ∀ a b, a < [1].length → b < [1].length →
          out.getD (a * [1].length + b) dfltImg
            = Image.absIm (Image.sub
                (Image.sub ([onePx, twoPx].getD ([1].getD a 0 - 1) dfltImg)
                  ([twoPx, onePx].getD ([1].getD a 0 - 1) dfltImg))
                (Image.sub
                  (cvResize
                    ([twoPx, onePx].getD ([1].getD a 0 + [1].getD b 0 - 1)
                      dfltImg)
                    ([twoPx, onePx].getD ([1].getD a 0 - 1) dfltImg).r
                    ([twoPx, onePx].getD ([1].getD a 0 - 1) dfltImg).c)
                  (cvResize
                    ([onePx, twoPx].getD ([1].getD a 0 + [1].getD b 0 - 1)
                      dfltImg)
                    ([onePx, twoPx].getD ([1].getD a 0 - 1) dfltImg).r
                    ([onePx, twoPx].getD ([1].getD a 0 - 1) dfltImg).c))) :=
  ⟨by decide,
   colour_feature_map_formula [onePx, twoPx] [twoPx, onePx] [1] [1]
     (by decide)⟩

/-- C8: for positive `center`/`delta` values, a requested surround level
`c + d - 1` at or beyond the pyramid depth makes the centre-surround
computations fail with an index error (modelled `none`) — in both the plain
and the colour variant — rather than silently clamping; when every requested
pair is in range the computations succeed. -/
theorem centre_surround_bounds (pyrmd Ap Bp : List Image)
    (center delta : List Nat)
    (hc : ∀ c ∈ center, 1 ≤ c) (hd : ∀ d ∈ delta, 1 ≤ d) :
    ((∃ c ∈ center, ∃ d ∈ delta, pyrmd.length ≤ c + d - 1) →
      centre_surround_feature_map pyrmd center delta = none)
    ∧ ((∃ c ∈ center, ∃ d ∈ delta,
        Ap.length ≤ c + d - 1 ∨ Bp.length ≤ c + d - 1) →
      centre_surround_colour_feature_map Ap Bp center delta = none)
    ∧ ((∀ c ∈ center, ∀ d ∈ delta, c + d ≤ pyrmd.length) →
      (centre_surround_feature_map pyrmd center delta).isSome = true)
    ∧ ((∀ c ∈ center, ∀ d ∈ delta, c + d ≤ Ap.length ∧ c + d ≤ Bp.length) →
      (centre_surround_colour_feature_map Ap Bp center delta).isSome
        = true) := by
  refine ⟨?_, ?_, ?_, ?_⟩
  · rintro ⟨c, hcm, d, hdm, hoob⟩
    exact nestedCS_none (csBody pyrmd) center delta c d hcm hdm
      (csBody_oob pyrmd c d (hc c hcm) hoob)
  · rintro ⟨c, hcm, d, hdm, hoob⟩
    exact nestedCS_none (ccsBody Ap Bp) center delta c d hcm hdm
      (ccsBody_oob Ap Bp c d (hc c hcm) hoob)
  · intro hin
    show (nestedCS (csBody pyrmd) center delta).isSome = true
    rw [nestedCS_some (csBody pyrmd) center delta (fun i hi j hj => by
      rw [csBody_eval pyrmd i j (hc i hi) (hin i hi j hj)]
      rfl)]
    rfl
  · intro hin
    show (nestedCS (ccsBody Ap Bp) center delta).isSome = true
    rw [nestedCS_some (ccsBody Ap Bp) center delta (fun i hi j hj => by
      rw [ccsBody_eval Ap Bp i j (hc i hi) (hin i hi j hj).1
        (hin i hi j hj).2]
      rfl)]
    rfl

theorem centre_surround_bounds_witness :
    ((∀ c ∈ ([1] : List Nat), 1 ≤ c) ∧ (∀ d ∈ ([2] : List Nat), 1 ≤ d))
    ∧ (((∃ c ∈ ([1] : List Nat), ∃ d ∈ ([2] : List Nat),
          [onePx, twoPx].length ≤ c + d - 1) →
        centre_surround_feature_map [onePx, twoPx] [1] [2] = none)
      ∧ ((∃ c ∈ ([1] : List Nat), ∃ d ∈ ([2] : List Nat),
          [onePx, twoPx].length ≤ c + d - 1
            ∨ [twoPx, onePx].length ≤ c + d - 1) →
        centre_surround_colour_feature_map [onePx, twoPx] [twoPx, onePx]
          [1] [2] = none)
      ∧ ((∀ c ∈ ([1] : List Nat), ∀ d ∈ ([2] : List Nat),
          c + d ≤ [onePx, twoPx].length) →
        (centre_surround_feature_map [onePx, twoPx] [1] [2]).isSome = true)
      ∧ ((∀ c ∈ ([1] : List Nat), ∀ d ∈ ([2] : List Nat),
          c + d ≤ [onePx, twoPx].length ∧ c + d ≤ [twoPx, onePx].length) →
        (centre_surround_colour_feature_map [onePx, twoPx] [twoPx, onePx]
          [1] [2]).isSome = true)) :=
  ⟨⟨by decide, by decide⟩,
   centre_surround_bounds [onePx, twoPx] [onePx, twoPx] [twoPx, onePx]
     [1] [2] (by decide) (by decide)⟩

theorem Image.ext2 (a b : Image) (hr : a.r = b.r) (hcc : a.c = b.c)
    (hp : ∀ i j, a.px i j = b.px i j) : a = b := by
  cases a; cases b
  simp only at hr hcc
  subst hr; subst hcc
  congr 1
  funext i j
  exact hp i j

theorem clampIdx_of_lt (n t : Nat) (h : t < n) : clampIdx n (t : Int) = t := by
  simp only [clampIdx]
  rw [if_neg (by omega)]
  simp [Int.toNat_natCast]
  omega

set_option maxHeartbeats 100000 in
theorem cvResize_self (m : Image) (hc : Canonical m) :
    cvResize m m.r m.c = m := by
  refine Image.ext2 _ _ rfl rfl ?_
  intro i j
  show (if i < m.r ∧ j < m.c then _ else 0) = m.px i j
  by_cases hin : i < m.r ∧ j < m.c
  · rw [if_pos hin]
    obtain ⟨hi, hj⟩ := hin
    have hr0 : ((m.r : ℚ)) ≠ 0 := Nat.cast_ne_zero.mpr (by omega)
    have hc0 : ((m.c : ℚ)) ≠ 0 := Nat.cast_ne_zero.mpr (by omega)
    rw [div_self hr0, div_self hc0]
    have e1 : ((i : ℚ) + 1/2) * 1 - 1/2 = (i : ℚ) := by ring
    have e2 : ((j : ℚ) + 1/2) * 1 - 1/2 = (j : ℚ) := by ring
    rw [e1, e2, Int.floor_natCast, Int.floor_natCast, Int.cast_natCast,
      Int.cast_natCast, sub_self, sub_self, clampIdx_of_lt m.r i hi,
      clampIdx_of_lt m.c j hj]
    ring
  · rw [if_neg hin]
    exact (hc i j hin).symm

theorem dogIter_zero (h : Image) (cte : ℚ) (f : Image) :
    dogIter h cte 0 f = f := rfl

theorem dogIter_succ (h : Image) (cte : ℚ) (n : Nat) (f : Image) :
    dogIter h cte (n + 1) f
      = if (dogUpdate h cte f).anyPos then
          dogIter h cte n
            ((dogMask (dogUpdate h cte f)).divC
              (dogMask (dogUpdate h cte f)).maxVal)
        else dogUpdate h cte f := rfl

theorem dogIter_shape (h : Image) (cte : ℚ) (n : Nat) :
    ∀ f, (dogIter h cte n f).r = f.r ∧ (dogIter h cte n f).c = f.c := by
  induction n with
  | zero => exact fun f => ⟨rfl, rfl⟩
  | succ n ih =>
    intro f
    rw [dogIter_succ]
    by_cases hb : (dogUpdate h cte f).anyPos
    · rw [if_pos hb]
      refine ⟨(ih _).1.trans ?_, (ih _).2.trans ?_⟩
      · rfl
      · rfl
    · rw [if_neg hb]
      exact ⟨rfl, rfl⟩

theorem dog_def (hFam : Nat → Nat → Image) (cte : ℚ) (loop : Nat)
    (im : Image) :
    difference_of_gaussians_filtering_and_update hFam cte loop im
      = if im.maxVal = 0 then none
        else some (dogIter (hFam im.r im.c) cte loop (im.divC im.maxVal)) :=
  rfl

theorem dog_shape (hFam : Nat → Nat → Image) (cte : ℚ) (loop : Nat)
    (im out : Image)
    (h : difference_of_gaussians_filtering_and_update hFam cte loop im
      = some out) : out.r = im.r ∧ out.c = im.c := by
  rw [dog_def] at h
  by_cases h0 : im.maxVal = 0
  · rw [if_pos h0] at h
    exact absurd h (by simp)
  · rw [if_neg h0] at h
    have := Option.some.inj h
    subst this
    refine ⟨(dogIter_shape _ cte loop _).1.trans ?_,
      (dogIter_shape _ cte loop _).2.trans ?_⟩
    · rfl
    · rfl

theorem foldl_add_shape (ms : List Image) (z : Image) :
    (ms.foldl Image.add z).r = z.r ∧ (ms.foldl Image.add z).c = z.c := by
  induction ms generalizing z with
  | nil => exact ⟨rfl, rfl⟩
  | cons m t ih =>
    rw [List.foldl_cons]
    exact ⟨(ih (z.add m)).1.trans rfl, (ih (z.add m)).2.trans rfl⟩

theorem mapM_congr (F G : Image → Option Image) (C : List Image)
    (h : ∀ m ∈ C, F m = G m) : C.mapM F = C.mapM G := by
  induction C with
  | nil => rfl
  | cons ci t ih =>
    rw [List.mapM_cons, List.mapM_cons, h ci (by simp),
      ih (fun m hm => h m (by simp [hm]))]

theorem foldlM_cmStep (hFam : Nat → Nat → Image) (loops lr lc : Nat)
    (C : List Image) (z : Image) :
    C.foldlM (cmStep hFam loops lr lc) z
      = (C.mapM fun ci => difference_of_gaussians_filtering_and_update hFam
            (1/50) loops
            (if (ci.r, ci.c) ≠ (lr, lc) then cvResize ci lr lc else ci)).map
          fun ms => ms.foldl Image.add z := by
  induction C generalizing z with
  | nil => rw [List.mapM_nil]; rfl
  | cons ci t ih =>
    rw [List.foldlM_cons, List.mapM_cons]
    have hstep : cmStep hFam loops lr lc z ci
        = (difference_of_gaussians_filtering_and_update hFam (1/50) loops
            (if (ci.r, ci.c) ≠ (lr, lc) then cvResize ci lr lc else ci)).map
          fun d => Image.add z d := rfl
    rw [hstep]
    cases hf : difference_of_gaussians_filtering_and_update hFam (1/50) loops
        (if (ci.r, ci.c) ≠ (lr, lc) then cvResize ci lr lc else ci) with
    | none => simp [hf]
    | some d =>
      simp only [hf, Option.map_some', Option.bind_eq_bind, Option.some_bind]
      rw [ih (z.add d)]
      cases hms : t.mapM fun ci =>
          difference_of_gaussians_filtering_and_update hFam (1/50) loops
            (if (ci.r, ci.c) ≠ (lr, lc) then cvResize ci lr lc else ci) with
      | none => simp
      | some ms => simp [List.foldl_cons]

/-- C7: for a non-empty feature-map list `C` (of canonical images),
`conspicuity_map` equals the DoG-normalisation of the sum of the
DoG-normalisations of the entries of `C` resized to the shape of the last
entry, and in particular the output shape always equals the shape of the
last element of `C`, regardless of the shapes of earlier elements. -/
theorem conspicuity_map_structure (hFam : Nat → Nat → Image) (C : List Image)
    (loops : Nat) (hne : C ≠ []) (hcan : ∀ m ∈ C, Canonical m) :
    conspicuity_map hFam C loops
      = (C.mapM fun ci => difference_of_gaussians_filtering_and_update hFam
            (1/50) loops
            (cvResize ci (C.getLastD dfltImg).r (C.getLastD dfltImg).c)).bind
          (fun ms => difference_of_gaussians_filtering_and_update hFam (1/50)
            loops
            (ms.foldl Image.add
              (zerosImg (C.getLastD dfltImg).r (C.getLastD dfltImg).c)))
    ∧ ∀ out, conspicuity_map hFam C loops = some out →
        out.r = (C.getLastD dfltImg).r ∧ out.c = (C.getLastD dfltImg).c := by
  have hlast : C.getLast? = some (C.getLastD dfltImg) := by
    cases hq : C.getLast? with
    | none => exact absurd (List.getLast?_eq_none_iff.mp hq) hne
    | some x => rw [List.getLastD_eq_getLast?, hq]; rfl
  have hdef : conspicuity_map hFam C loops
      = (C.foldlM (cmStep hFam loops (C.getLastD dfltImg).r
            (C.getLastD dfltImg).c)
          (zerosImg (C.getLastD dfltImg).r (C.getLastD dfltImg).c)).bind
        (fun out => difference_of_gaussians_filtering_and_update hFam (1/50)
          loops out) := by
    conv_lhs => rw [show conspicuity_map hFam C loops
        = (C.getLast?).bind (fun lastIm =>
            (C.foldlM (cmStep hFam loops lastIm.r lastIm.c)
              (zerosImg lastIm.r lastIm.c)).bind
            fun out => difference_of_gaussians_filtering_and_update hFam
              (1/50) loops out) from rfl, hlast]
    rfl
  have hpw : ∀ m ∈ C,
      difference_of_gaussians_filtering_and_update hFam (1/50) loops
        (if (m.r, m.c) ≠ ((C.getLastD dfltImg).r, (C.getLastD dfltImg).c)
          then cvResize m (C.getLastD dfltImg).r (C.getLastD dfltImg).c
          else m)
      = difference_of_gaussians_filtering_and_update hFam (1/50) loops
          (cvResize m (C.getLastD dfltImg).r (C.getLastD dfltImg).c) := by
    intro ci hci
    by_cases hsh : (ci.r, ci.c)
        ≠ ((C.getLastD dfltImg).r, (C.getLastD dfltImg).c)
    · rw [if_pos hsh]
    · rw [if_neg hsh]
      push_neg at hsh
      have h1 : ci.r = (C.getLastD dfltImg).r := congrArg Prod.fst hsh
      have h2 : ci.c = (C.getLastD dfltImg).c := congrArg Prod.snd hsh
      rw [← h1, ← h2, cvResize_self ci (hcan ci hci)]
  have hstruct : conspicuity_map hFam C loops
      = (C.mapM fun ci => difference_of_gaussians_filtering_and_update hFam
            (1/50) loops
            (cvResize ci (C.getLastD dfltImg).r (C.getLastD dfltImg).c)).bind
          (fun ms => difference_of_gaussians_filtering_and_update hFam (1/50)
            loops
            (ms.foldl Image.add
              (zerosImg (C.getLastD dfltImg).r (C.getLastD dfltImg).c))) := by
    rw [hdef, foldlM_cmStep, mapM_congr _ _ C hpw]
    cases hm : C.mapM fun ci =>
        difference_of_gaussians_filtering_and_update hFam (1/50) loops
          (cvResize ci (C.getLastD dfltImg).r (C.getLastD dfltImg).c) with
    | none => simp
    | some ms => simp
  refine ⟨hstruct, ?_⟩
  intro out hout
  rw [hstruct] at hout
  cases hm : C.mapM fun ci =>
      difference_of_gaussians_filtering_and_update hFam (1/50) loops
        (cvResize ci (C.getLastD dfltImg).r (C.getLastD dfltImg).c) with
  | none => rw [hm] at hout; exact absurd hout (by simp)
  | some ms =>
    rw [hm] at hout
    simp only [Option.some_bind] at hout
    have hs := dog_shape hFam (1/50) loops _ out hout
    have hf := foldl_add_shape ms
      (zerosImg (C.getLastD dfltImg).r (C.getLastD dfltImg).c)
    exact ⟨hs.1.trans (hf.1.trans rfl), hs.2.trans (hf.2.trans rfl)⟩

theorem conspicuity_map_structure_witness :
    (([onePx] : List Image) ≠ [] ∧ ∀ m ∈ ([onePx] : List Image), Canonical m)
    ∧ ((conspicuity_map zeroKernelFam [onePx] 1
        = ([onePx].mapM fun ci =>
            difference_of_gaussians_filtering_and_update zeroKernelFam
              (1/50) 1
              (cvResize ci ([onePx].getLastD dfltImg).r
                ([onePx].getLastD dfltImg).c)).bind
          (fun ms => difference_of_gaussians_filtering_and_update
            zeroKernelFam (1/50) 1
            (ms.foldl Image.add (zerosImg ([onePx].getLastD dfltImg).r
              ([onePx].getLastD dfltImg).c))))
      ∧ ∀ out, conspicuity_map zeroKernelFam [onePx] 1 = some out →
          out.r = ([onePx].getLastD dfltImg).r
          ∧ out.c = ([onePx].getLastD dfltImg).c) :=
  ⟨⟨by simp, fun m hm => by
      rw [List.mem_singleton.mp hm]
      exact mk2_canonical 1 1 _⟩,
   conspicuity_map_structure zeroKernelFam [onePx] 1 (by simp)
     (fun m hm => by
       rw [List.mem_singleton.mp hm]
       exact mk2_canonical 1 1 _)⟩
